import Mathlib

/-
Verification development for the parsing core of the packs repository.

The Rust sources embedded here are:
  src/packs/parser.rs                              (the strict walker)
  src/packs/parsing/ruby/experimental/parser.rs    (the lightweight walker)
  src/packs/parsing/erb/experimental/parser.rs     (the templated front end)

Rust machine integers index byte positions and rows and columns; they are
modelled as Nat (no arithmetic here can overflow a usize in the modelled
domain, and no wrapping arithmetic occurs in the sources).  Fallible code
(Rust Result) is modelled with Except; Rust panics are modelled as a
distinguished error of the walk so that aborting executions are visible.
External crates (the Ruby parser itself, the line-column index, the
inflector) are not part of the repository: they are either taken as
explicit function parameters or modelled from the specification, as noted
at each definition.
-/

namespace Packs

/-- Byte-offset location of a node, after lib_ruby_parser Loc (fields begin
and end, renamed because both are Lean keywords). -/
structure Loc where
  begin_ : Nat
  end_ : Nat
deriving DecidableEq, Repr

/-- Row and column range, after struct Range in src/packs/parser.rs. -/
structure Range where
  start_row : Nat
  start_col : Nat
  end_row : Nat
  end_col : Nat
deriving DecidableEq, Repr

/-- Default (sentinel) Range.  Modelled from the derived Rust Default for
the parsing Range type (all fields zero); the spec calls this the
sentinel unknown span used for template-derived uses. -/
def Range.default : Range := ⟨0, 0, 0, 0⟩

/-- After struct SuperclassReference in src/packs/parser.rs. -/
structure SuperclassReference where
  name : String
  namespace_path : List String
deriving DecidableEq, Repr

/-- After struct Reference in src/packs/parser.rs. -/
structure Reference where
  name : String
  namespace_path : List String
  location : Range
deriving DecidableEq, Repr

/-- After struct Definition in src/packs/parser.rs. -/
structure Definition where
  fully_qualified_name : String
  location : Range
  namespace_path : List String
deriving DecidableEq, Repr

/-- Rust slice join with separator, restricted to the only separator the
sources use.  join of [] is the empty string, of [a] is a, and otherwise
the elements interleaved with the separator. -/
def joinColons : List String → String
  | [] => ""
  | [a] => a
  | a :: b :: t => a ++ "::" ++ joinColons (b :: t)

/-- One iteration of the loop in calculate_module_nesting
(src/packs/parser.rs lines 34-49): the accumulator is the pair of the
output list built so far and the previous cumulative name. -/
def calculate_module_nesting_step (acc : List String × String)
    (namespace_ : String) : List String × String :=
  let new_nesting := if acc.2.isEmpty then namespace_ else acc.2 ++ "::" ++ namespace_
  (new_nesting :: acc.1, new_nesting)

/-- After calculate_module_nesting in src/packs/parser.rs lines 34-49:
iterate over the input accumulating cumulative names, inserting each at
the front of the output. -/
def calculate_module_nesting (namespace_nesting : List String) : List String :=
  (namespace_nesting.foldl calculate_module_nesting_step ([], "")).1

/-- Modelled from the Rust standard library str::starts_with, specialized
to the one prefix the sources ever test: true exactly when the first two
characters of the string are the two colons of the scope separator.
(The built-in String.startsWith is not used because it does not reduce
inside the kernel.) -/
def startsWithColonColon (s : String) : Bool :=
  match s.data with
  | ':' :: ':' :: _ => true
  | _ => false

/-- After Reference::possible_fully_qualified_constants in
src/packs/parser.rs lines 64-79: a root-anchored name is its only
candidate; otherwise the bare name followed by each nesting prefix
root-anchored around the name, pushed in nesting order. -/
def Reference.possible_fully_qualified_constants (r : Reference) : List String :=
  if startsWithColonColon r.name then [r.name]
  else
    (calculate_module_nesting r.namespace_path).foldl
      (fun possible_constants nesting =>
        possible_constants ++ ["::" ++ nesting ++ "::" ++ r.name])
      [r.name]

/-- Follows the words of the spec (section 4.1): the output of the Nesting
Calculator is the list of cumulative scope-qualified prefixes of the
input, each prefix joined with the scope separator, ordered from
innermost to outermost.  Stated independently of the source loop so that
the two can be compared. -/
def cumulative_prefixes (scopes : List String) : List String :=
  ((List.range scopes.length).map (fun i => joinColons (scopes.take (i + 1)))).reverse

/-- Proof-side helper: the increasing cumulative prefixes of a scope list,
outermost first. -/
def prefixJoins : List String → List String
  | [] => []
  | a :: rest => a :: (prefixJoins rest).map (fun s => a ++ "::" ++ s)

/-- Proof-side helper: the cumulative name reached after folding a whole
scope list on top of a nonempty previous prefix. -/
def finalPrefix (prev : String) : List String → String
  | [] => prev
  | a :: t => prev ++ "::" ++ joinColons (a :: t)

theorem joinColons_cons (a : String) {t : List String} (h : t ≠ []) :
    joinColons (a :: t) = a ++ "::" ++ joinColons t := by
  cases t with
  | nil => exact absurd rfl h
  | cons b t' => rfl

theorem append_sep_ne_empty (a b : String) : a ++ "::" ++ b ≠ "" := by
  intro h
  have hl := congrArg String.length h
  rw [String.length_append, String.length_append] at hl
  have h2 : "::".length = 2 := rfl
  have h0 : String.length "" = 0 := rfl
  omega

theorem prefixJoins_eq_range_map (l : List String) :
    prefixJoins l = (List.range l.length).map (fun i => joinColons (l.take (i + 1))) := by
  induction l with
  | nil => rfl
  | cons a rest ih =>
    show a :: (prefixJoins rest).map (fun s => a ++ "::" ++ s) = _
    rw [List.length_cons, List.range_succ_eq_map, List.map_cons]
    refine congrArg₂ _ rfl ?_
    rw [ih, List.map_map, List.map_map]
    refine List.map_congr_left ?_
    intro i hi
    have hi' : i < rest.length := List.mem_range.mp hi
    have hne : rest.take (i + 1) ≠ [] := by
      have : rest ≠ [] := by
        intro h
        rw [h] at hi'
        exact Nat.not_lt_zero i hi'
      cases rest with
      | nil => exact absurd rfl this
      | cons b t => simp [List.take]
    simp only [Function.comp_apply, Nat.succ_eq_add_one]
    rw [List.take_succ_cons, joinColons_cons a hne]

theorem foldl_nesting_step (l : List String) :
    ∀ (acc : List String) (prev : String), prev ≠ "" →
      l.foldl calculate_module_nesting_step (acc, prev)
        = (((prefixJoins l).map (fun s => prev ++ "::" ++ s)).reverse ++ acc,
           finalPrefix prev l) := by
  induction l with
  | nil => intro acc prev _; rfl
  | cons n t ih =>
    intro acc prev hprev
    have hstep : calculate_module_nesting_step (acc, prev) n
        = ((prev ++ "::" ++ n) :: acc, prev ++ "::" ++ n) := by
      unfold calculate_module_nesting_step
      have : prev.isEmpty = false := by
        cases hpe : prev.isEmpty with
        | false => rfl
        | true => exact absurd ((String.isEmpty_iff prev).mp hpe) hprev
      simp [this]
    rw [List.foldl_cons, hstep, ih ((prev ++ "::" ++ n) :: acc) (prev ++ "::" ++ n)
      (append_sep_ne_empty prev n)]
    rw [Prod.mk.injEq]
    refine ⟨?_, ?_⟩
    · show ((prefixJoins t).map (fun s => prev ++ "::" ++ n ++ "::" ++ s)).reverse
          ++ ((prev ++ "::" ++ n) :: acc)
        = ((prefixJoins (n :: t)).map (fun s => prev ++ "::" ++ s)).reverse ++ acc
      show _ = (((n :: (prefixJoins t).map (fun s => n ++ "::" ++ s)).map
          (fun s => prev ++ "::" ++ s)).reverse ++ acc)
      rw [List.map_cons, List.map_map, List.reverse_cons, List.append_assoc]
      refine congrArg₂ _ ?_ rfl
      refine congrArg _ (List.map_congr_left ?_)
      intro s _
      simp [Function.comp_apply, String.append_assoc]
    · show finalPrefix (prev ++ "::" ++ n) t = finalPrefix prev (n :: t)
      cases t with
      | nil => rfl
      | cons m t' =>
        show prev ++ "::" ++ n ++ "::" ++ joinColons (m :: t')
            = prev ++ "::" ++ joinColons (n :: m :: t')
        rw [joinColons_cons n (by simp)]
        simp [String.append_assoc]

theorem calculate_module_nesting_eq_prefixJoins (l : List String)
    (h : ∀ s ∈ l, s ≠ "") :
    calculate_module_nesting l = (prefixJoins l).reverse := by
  cases l with
  | nil => rfl
  | cons a rest =>
    have ha : a ≠ "" := h a (List.mem_cons_self a rest)
    unfold calculate_module_nesting
    have hstep : calculate_module_nesting_step ([], "") a = ([a], a) := rfl
    rw [List.foldl_cons, hstep, foldl_nesting_step rest [a] a ha]
    show ((prefixJoins rest).map (fun s => a ++ "::" ++ s)).reverse ++ [a]
        = (prefixJoins (a :: rest)).reverse
    show _ = (a :: (prefixJoins rest).map (fun s => a ++ "::" ++ s)).reverse
    rw [List.reverse_cons]

theorem foldl_push_map {α β : Type} (f : α → β) (l : List α) :
    ∀ (a : List β), l.foldl (fun acc x => acc ++ [f x]) a = a ++ l.map f := by
  induction l with
  | nil => intro a; simp
  | cons x t ih => intro a; rw [List.foldl_cons, ih, List.map_cons]; simp

/-- Claim C1.  The Nesting Calculator, applied to any list of scope names
(scope names are nonempty identifiers), returns the cumulative
scope-separator-joined prefixes of the input in innermost-to-outermost
order.  In particular for [A, B, C] it returns [A::B::C, A::B, A], for
[A] it returns [A] and for [] it returns [].  The function is a pure
total Lean function, so it has no failure mode. -/
theorem claim_c1_nesting_calculator (namespace_nesting : List String)
    (h : ∀ s ∈ namespace_nesting, s ≠ "") :
    calculate_module_nesting namespace_nesting = cumulative_prefixes namespace_nesting := by
  rw [calculate_module_nesting_eq_prefixJoins namespace_nesting h]
  unfold cumulative_prefixes
  rw [prefixJoins_eq_range_map]

/-- Witness for claim C1 at the concrete inputs named by the spec. -/
theorem claim_c1_nesting_calculator_witness :
    (∀ s ∈ ["A", "B", "C"], s ≠ "")
    ∧ calculate_module_nesting ["A", "B", "C"] = cumulative_prefixes ["A", "B", "C"]
    ∧ calculate_module_nesting ["A", "B", "C"] = ["A::B::C", "A::B", "A"]
    ∧ calculate_module_nesting ["A"] = ["A"]
    ∧ calculate_module_nesting ([] : List String) = [] :=
  ⟨by decide, claim_c1_nesting_calculator ["A", "B", "C"] (by decide),
   by decide, by decide, by decide⟩

/-- Claim C2.  Candidate expansion of a symbol use: a root-anchored name is
its own only candidate; otherwise the bare name comes first, followed by
the root-anchored combination of each Nesting Calculator prefix with the
name, in the innermost-to-outermost order the Nesting Calculator
produces. -/
theorem claim_c2_candidate_expansion (r : Reference) :
    r.possible_fully_qualified_constants
      = if startsWithColonColon r.name then [r.name]
        else r.name :: (calculate_module_nesting r.namespace_path).map
              (fun nesting => "::" ++ nesting ++ "::" ++ r.name) := by
  unfold Reference.possible_fully_qualified_constants
  cases hs : startsWithColonColon r.name with
  | true => simp [hs]
  | false =>
    simp only [hs, Bool.false_eq_true, if_false]
    rw [foldl_push_map (fun nesting => "::" ++ nesting ++ "::" ++ r.name)
      (calculate_module_nesting r.namespace_path) [r.name]]
    rfl

/-- The Ruby AST node kinds the two walkers inspect, after the
lib_ruby_parser node types the sources match on.  Each walker handles
const, class, module, casgn, send (and, for the lightweight walker, def)
specially; the remaining kinds are containers or leaves reached by the
default visitor, which simply visits every child. -/
inductive RNode where
  | const (scope : Option RNode) (name : String) (expression_l : Loc)
  | cbase
  | self_
  | lvar (name : String)
  | ivar (name : String)
  | sym (name : String)
  | str (value : String)
  | int (value : Int)
  | send (recv : Option RNode) (method_name : String) (args : List RNode) (expression_l : Loc)
  | kwargs (pairs : List RNode)
  | pair (key : RNode) (value : RNode)
  | class_ (name : RNode) (superclass : Option RNode) (body : Option RNode)
  | module_ (name : RNode) (body : Option RNode)
  | casgn (scope : Option RNode) (name : String) (name_l : Loc) (value : Option RNode) (expression_l : Loc)
  | def_ (name : String) (body : Option RNode)
  | begin_ (statements : List RNode)
  | array (elements : List RNode)

/-- Outcome of the fetch helpers of src/packs/parser.rs lines 117-173.
metaprogramming is the recoverable ParseError variant; panicOther stands
for the Rust panics those helpers raise on node kinds they refuse to
handle, which abort the whole walk rather than returning an error. -/
inductive FetchErr where
  | metaprogramming
  | panicOther
deriving DecidableEq, Repr

/-- After fetch_const_name together with fetch_const_const_name in
src/packs/parser.rs lines 136-162: a constant path is resolved segment by
segment; a root anchor contributes the empty parent so the result starts
with the separator; method calls, local and instance variables and self
are the metaprogramming failures; every other node kind panics. -/
def fetch_const_name : RNode → Except FetchErr String
  | .const scope name _ =>
    match scope with
    | some s =>
      match fetch_const_name s with
      | .ok parent_namespace => .ok (parent_namespace ++ "::" ++ name)
      | .error e => .error e
    | none => .ok name
  | .cbase => .ok ""
  | .send _ _ _ _ => .error .metaprogramming
  | .lvar _ => .error .metaprogramming
  | .ivar _ => .error .metaprogramming
  | .self_ => .error .metaprogramming
  | .sym _ => .error .panicOther
  | .str _ => .error .panicOther
  | .int _ => .error .panicOther
  | .kwargs _ => .error .panicOther
  | .pair _ _ => .error .panicOther
  | .class_ _ _ _ => .error .panicOther
  | .module_ _ _ => .error .panicOther
  | .casgn _ _ _ _ _ => .error .panicOther
  | .def_ _ _ => .error .panicOther
  | .begin_ _ => .error .panicOther
  | .array _ => .error .panicOther

/-- After fetch_const_const_name in src/packs/parser.rs lines 154-162,
applied to the scope and name fields of a Const node. -/
def fetch_const_const_name (scope : Option RNode) (name : String) :
    Except FetchErr String :=
  match scope with
  | some s =>
    match fetch_const_name s with
    | .ok parent_namespace => .ok (parent_namespace ++ "::" ++ name)
    | .error e => .error e
  | none => .ok name

/-- After fetch_casgn_name in src/packs/parser.rs lines 165-173, applied
to the scope and name fields of a Casgn node (textually the same
resolution as fetch_const_const_name). -/
def fetch_casgn_name (scope : Option RNode) (name : String) :
    Except FetchErr String :=
  match scope with
  | some s =>
    match fetch_const_name s with
    | .ok parent_namespace => .ok (parent_namespace ++ "::" ++ name)
    | .error e => .error e
  | none => .ok name

/-- After fetch_node_location in src/packs/parser.rs lines 123-134: only a
Const node yields a location; every other kind panics. -/
def fetch_node_location : RNode → Except FetchErr Loc
  | .const _ _ expression_l => .ok expression_l
  | _ => .error .panicOther

/-- Modelled from the line_col crate (external to this repository), whose
LineColLookup maps a byte offset of the contents to a one-based (row,
column) pair.  Offsets are modelled as character positions. -/
def lineColLookup (contents : String) (i : Nat) : Nat × Nat :=
  let pre := contents.data.take i
  (pre.count (Char.ofNat 10) + 1, (pre.reverse.takeWhile (fun ch => ch ≠ Char.ofNat 10)).length + 1)

/-- After loc_to_range in src/packs/parser.rs lines 395-405: look up both
ends of the location and subtract one from the start column (the noted
off-by-one compatibility adjustment); the lookup function stands for the
LineColLookup the sources build from the file contents. -/
def loc_to_range (loc : Loc) (lookup : Nat → Nat × Nat) : Range :=
  let (start_row, start_col) := lookup loc.begin_
  let (end_row, end_col) := lookup loc.end_
  { start_row := start_row, start_col := start_col - 1, end_row := end_row, end_col := end_col }

/-- Splitting a word list at underscores, used by the to_class_case
model. -/
def splitOnUnderscore : List Char → List (List Char)
  | [] => [[]]
  | ch :: rest =>
    let r := splitOnUnderscore rest
    if ch == '_' then [] :: r
    else
      match r with
      | [] => [[ch]]
      | w :: ws => (ch :: w) :: ws

/-- Modelled from the spec (section 4.2) and the inflector crate (external
to this repository): to_class_case turns snake-case text into its
PascalCase-singular form; each underscore-separated word is capitalized
and singularization is modelled as dropping one trailing letter s, which
agrees with the inflector on every name appearing in the sources and
their tests. -/
def to_class_case (s : String) : String :=
  let words := splitOnUnderscore s.data
  let joined := (words.map (fun w =>
    match w with
    | [] => []
    | ch :: rest => ch.toUpper :: rest)).flatten
  let singular :=
    match joined.reverse with
    | 's' :: rest => rest.reverse
    | _ => joined
  String.mk singular

/-- The fully qualified name computation the sources repeat in on_class,
on_module and on_casgn (for example src/packs/parser.rs lines 194-200):
join the current namespaces with the new name and anchor at the root. -/
def fqn_for (current_namespaces : List String) (name : String) : String :=
  if ¬ current_namespaces.isEmpty then
    "::" ++ joinColons (current_namespaces ++ [name])
  else
    "::" ++ name

/-- After struct ReferenceCollector in src/packs/parser.rs lines 108-115.
The line_col_lookup field is passed to the walk as a parameter instead of
being stored, because it is a function. -/
structure Collector where
  references : List Reference
  definitions : List Definition
  current_namespaces : List String
  in_superclass : Bool
  superclasses : List SuperclassReference
deriving DecidableEq, Repr

/-- A walk aborts when the sources panic (the expect in on_module, the
unwrap of fetch_node_location, or the panicking arms of the fetch
helpers). -/
inductive WalkErr where
  | panicked
deriving DecidableEq, Repr

/-- The association handling of on_send in src/packs/parser.rs lines
231-276: for the four relationship keywords, a kwargs second argument is
scanned for class_name entries with literal string values (each pushes a
reference through to_class_case); otherwise a literal symbol first
argument pushes a reference through to_class_case. -/
def strict_association_references (method_name : String) (args : List RNode)
    (namespace_path : List String) (location : Range) : List Reference :=
  if method_name == "has_one" || method_name == "has_many"
      || method_name == "belongs_to" || method_name == "has_and_belongs_to_many" then
    match args.get? 1 with
    | some (.kwargs pairs) =>
      pairs.filterMap (fun pair_node =>
        match pair_node with
        | .pair (.sym k) v =>
          if k == "class_name" then
            match v with
            | .str value => some ⟨to_class_case value, namespace_path, location⟩
            | _ => none
          else none
        | _ => none)
    | _ =>
      match args.get? 0 with
      | some (.sym d) => [⟨to_class_case d, namespace_path, location⟩]
      | _ => []
  else []

mutual

/-- The strict walker, after impl Visitor for ReferenceCollector in
src/packs/parser.rs lines 175-393.  Node kinds without a handler get the
default visitor behaviour of visiting every child. -/
def visit (lookup : Nat → Nat × Nat) : RNode → Collector → Except WalkErr Collector
  | .class_ nameNode superclass body, c =>
    match fetch_const_name nameNode with
    | .error .metaprogramming => .ok c
    | .error .panicOther => .error .panicked
    | .ok namespace_ =>
      match visitSuperclassOpt lookup superclass c with
      | .error e => .error e
      | .ok c1 =>
        let fully_qualified_name := fqn_for c1.current_namespaces namespace_
        match fetch_node_location nameNode with
        | .error _ => .error .panicked
        | .ok definition_loc =>
          let location := loc_to_range definition_loc lookup
          let c2 := { c1 with current_namespaces := c1.current_namespaces ++ [namespace_] }
          let c3 := { c2 with definitions := c2.definitions
            ++ [({ fully_qualified_name := fully_qualified_name,
                   location := location,
                   namespace_path := c2.current_namespaces } : Definition)] }
          let c4 := { c3 with references := c3.references
            ++ [({ name := fully_qualified_name,
                   namespace_path := c3.current_namespaces,
                   location := location } : Reference)] }
          match visitOpt lookup body c4 with
          | .error e => .error e
          | .ok c5 => .ok { c5 with
              current_namespaces := c5.current_namespaces.dropLast,
              superclasses := c5.superclasses.dropLast }
  | .module_ nameNode body, c =>
    match fetch_const_name nameNode with
    | .error _ => .error .panicked
    | .ok namespace_ =>
      let fully_qualified_name := fqn_for c.current_namespaces namespace_
      match fetch_node_location nameNode with
      | .error _ => .error .panicked
      | .ok definition_loc =>
        let location := loc_to_range definition_loc lookup
        let c1 := { c with current_namespaces := c.current_namespaces ++ [namespace_] }
        let c2 := { c1 with definitions := c1.definitions
          ++ [({ fully_qualified_name := fully_qualified_name,
                 location := location,
                 namespace_path := c1.current_namespaces } : Definition)] }
        let c3 := { c2 with references := c2.references
          ++ [({ name := fully_qualified_name,
                 namespace_path := c2.current_namespaces,
                 location := location } : Reference)] }
        match visitOpt lookup body c3 with
        | .error e => .error e
        | .ok c4 => .ok { c4 with current_namespaces := c4.current_namespaces.dropLast }
  | .casgn scope name _ value expression_l, c =>
    match fetch_casgn_name scope name with
    | .error .metaprogramming => .ok c
    | .error .panicOther => .error .panicked
    | .ok name_ =>
      let fully_qualified_name := fqn_for c.current_namespaces name_
      let c1 := { c with definitions := c.definitions
        ++ [({ fully_qualified_name := fully_qualified_name,
               location := loc_to_range expression_l lookup,
               namespace_path := c.current_namespaces } : Definition)] }
      visitOpt lookup value c1
  | .send recv method_name args expression_l, c =>
    let association := strict_association_references method_name args
      c.current_namespaces (loc_to_range expression_l lookup)
    let c1 := { c with references := c.references ++ association }
    match visitOpt lookup recv c1 with
    | .error e => .error e
    | .ok c2 => visitList lookup args c2
  | .const scope name expression_l, c =>
    match fetch_const_const_name scope name with
    | .error .metaprogramming => .ok c
    | .error .panicOther => .error .panicked
    | .ok name_ =>
      let c1 := if c.in_superclass then
          { c with superclasses := c.superclasses
            ++ [({ name := name_, namespace_path := c.current_namespaces } : SuperclassReference)] }
        else c
      let matching_superclass_option :=
        c1.superclasses.find? (fun superclass => superclass.name == name_)
      let namespace_path :=
        match matching_superclass_option with
        | some matching_superclass => matching_superclass.namespace_path
        | none =>
          c1.current_namespaces.filter (fun namespace_ =>
            namespace_ != name_
              || c1.superclasses.any (fun superclass => superclass.name == name_))
      .ok { c1 with references := c1.references
        ++ [({ name := name_, namespace_path := namespace_path,
               location := loc_to_range expression_l lookup } : Reference)] }
  | .begin_ statements, c => visitList lookup statements c
  | .def_ _ body, c => visitOpt lookup body c
  | .array elements, c => visitList lookup elements c
  | .kwargs pairs, c => visitList lookup pairs c
  | .pair key value, c =>
    match visit lookup key c with
    | .error e => .error e
    | .ok c1 => visit lookup value c1
  | .cbase, c => .ok c
  | .self_, c => .ok c
  | .lvar _, c => .ok c
  | .ivar _, c => .ok c
  | .sym _, c => .ok c
  | .str _, c => .ok c
  | .int _, c => .ok c
termination_by n _ => sizeOf n

/-- Superclass traversal of on_class (src/packs/parser.rs lines 187-192):
set the in_superclass flag, visit the superclass expression, clear the
flag. -/
def visitSuperclassOpt (lookup : Nat → Nat × Nat) :
    Option RNode → Collector → Except WalkErr Collector
  | none, c => .ok c
  | some inner, c =>
    match visit lookup inner { c with in_superclass := true } with
    | .error e => .error e
    | .ok c1 => .ok { c1 with in_superclass := false }
termination_by o _ => sizeOf o

/-- Default traversal of an optional child node. -/
def visitOpt (lookup : Nat → Nat × Nat) :
    Option RNode → Collector → Except WalkErr Collector
  | none, c => .ok c
  | some n, c => visit lookup n c
termination_by o _ => sizeOf o

/-- Default traversal of a list of child nodes, left to right. -/
def visitList (lookup : Nat → Nat × Nat) :
    List RNode → Collector → Except WalkErr Collector
  | [], c => .ok c
  | n :: rest, c =>
    match visit lookup n c with
    | .error e => .error e
    | .ok c1 => visitList lookup rest c1
termination_by l _ => sizeOf l

end

/-- The per-reference decision of the local filtering pass of
extract_from_contents (src/packs/parser.rs lines 475-496): fold over the
expansion candidates; each candidate found in the local definition map
(with a root-anchored fallback probe) overwrites the flag with whether
the found location differs from the reference location in starting row
or column. -/
def should_ignore_local_reference (definition_to_location_map : List (String × Range))
    (r : Reference) : Bool :=
  r.possible_fully_qualified_constants.foldl
    (fun should_ignore constant_name =>
      match (List.lookup constant_name definition_to_location_map).or
          (List.lookup ("::" ++ constant_name) definition_to_location_map) with
      | some location =>
        let reference_is_definition :=
          location.start_row == r.location.start_row
            && location.start_col == r.location.start_col
        if reference_is_definition then false else true
      | none => should_ignore)
    false

/-- The filter of src/packs/parser.rs lines 472-498: keep the references
the local pass does not ignore. -/
def filter_local_references (definition_to_location_map : List (String × Range))
    (references : List Reference) : List Reference :=
  references.filter (fun r => !(should_ignore_local_reference definition_to_location_map r))

/-- After extract_from_contents in src/packs/parser.rs lines 432-499.  The
external Ruby parser and LineColLookup construction are represented by
the ast_option and lookup arguments; the Rust HashMap is modelled as an
association list where later insertions shadow earlier ones, matching
HashMap insert overwriting. -/
def extract_from_contents (lookup : Nat → Nat × Nat) (ast_option : Option RNode) :
    Except WalkErr (List Reference) :=
  match ast_option with
  | none => .ok []
  | some ast =>
    match visit lookup ast ⟨[], [], [], false, []⟩ with
    | .error e => .error e
    | .ok collector =>
      let definition_to_location_map :=
        collector.definitions.foldl
          (fun m d => (d.fully_qualified_name, d.location) :: m) []
      .ok (filter_local_references definition_to_location_map collector.references)

/-- After struct UnresolvedReference of the parsing module, as used by the
lightweight walker. -/
structure UnresolvedReference where
  name : String
  namespace_path : List String
  location : Range
deriving DecidableEq, Repr

/-- After struct ParsedDefinition of the parsing module: the lightweight
walker records only the fully qualified name and the location (see the
push in its on_casgn, src/packs/parsing/ruby/experimental/parser.rs lines
99-102). -/
structure ParsedDefinition where
  fully_qualified_name : String
  location : Range
deriving DecidableEq, Repr

/-- After struct ProcessedFile in src/packs.rs lines 57-62.  The absolute
path is modelled as a string. -/
structure ProcessedFile where
  absolute_path : String
  unresolved_references : List UnresolvedReference
  definitions : List ParsedDefinition
deriving DecidableEq, Repr

/-- Modelled from the spec: get_definition_from lives in the parse_utils
module, which is not among the given sources.  Its call sites pass the
resolved namespace, the namespace stack before the push, and the location
of the declared name, and the spec (sections 3 and 4.2) says a
SymbolDefinition carries the root-anchored fully qualified name; the
inlined on_casgn of the same walker computes exactly fqn_for. -/
def get_definition_from (namespace_ : String) (current_namespaces : List String)
    (location : Range) : ParsedDefinition :=
  { fully_qualified_name := fqn_for current_namespaces namespace_,
    location := location }

/-- Modelled from the spec (section 4.2):
get_reference_from_active_record_association lives in the parse_utils
module, which is not among the given sources.  For the four relationship
keywords, a class_name keyword entry with a literal string value gives
the target name verbatim; otherwise a literal symbol first argument gives
the PascalCase-singular form of its text; otherwise nothing. -/
def get_reference_from_active_record_association (method_name : String)
    (args : List RNode) (current_namespaces : List String) (location : Range) :
    Option UnresolvedReference :=
  if method_name == "has_one" || method_name == "has_many"
      || method_name == "belongs_to" || method_name == "has_and_belongs_to_many" then
    let from_kwargs :=
      match args.get? 1 with
      | some (.kwargs pairs) =>
        pairs.findSome? (fun pair_node =>
          match pair_node with
          | .pair (.sym k) (.str value) => if k == "class_name" then some value else none
          | _ => none)
      | _ => none
    match from_kwargs with
    | some value => some ⟨value, current_namespaces, location⟩
    | none =>
      match args.get? 0 with
      | some (.sym d) => some ⟨to_class_case d, current_namespaces, location⟩
      | _ => none
  else none

/-- After struct ReferenceCollector in
src/packs/parsing/ruby/experimental/parser.rs lines 18-24; the
line_col_lookup field is again passed as a parameter. -/
structure ExpCollector where
  references : List UnresolvedReference
  definitions : List ParsedDefinition
  current_namespaces : List String
  behavioral_change_in_namespace : Bool
deriving DecidableEq, Repr

mutual

/-- The lightweight walker, after impl Visitor for ReferenceCollector in
src/packs/parsing/ruby/experimental/parser.rs lines 26-164. -/
def expVisit (lookup : Nat → Nat × Nat) : RNode → ExpCollector → Except WalkErr ExpCollector
  | .class_ nameNode superclass body, c =>
    match fetch_const_name nameNode with
    | .error .metaprogramming => .ok c
    | .error .panicOther => .error .panicked
    | .ok namespace_ =>
      match expVisitOpt lookup superclass c with
      | .error e => .error e
      | .ok c1 =>
        match fetch_node_location nameNode with
        | .error _ => .error .panicked
        | .ok definition_loc =>
          let location := loc_to_range definition_loc lookup
          let definition := get_definition_from namespace_ c1.current_namespaces location
          let c2 := { c1 with current_namespaces := c1.current_namespaces ++ [namespace_] }
          match expVisitOpt lookup body c2 with
          | .error e => .error e
          | .ok c3 =>
            let c4 := if c3.behavioral_change_in_namespace then
                { c3 with definitions := c3.definitions ++ [definition] }
              else c3
            .ok { c4 with
              behavioral_change_in_namespace := false,
              current_namespaces := c4.current_namespaces.dropLast }
  | .module_ nameNode body, c =>
    match fetch_const_name nameNode with
    | .error _ => .error .panicked
    | .ok namespace_ =>
      match fetch_node_location nameNode with
      | .error _ => .error .panicked
      | .ok definition_loc =>
        let location := loc_to_range definition_loc lookup
        let definition := get_definition_from namespace_ c.current_namespaces location
        let c1 := { c with current_namespaces := c.current_namespaces ++ [namespace_] }
        match expVisitOpt lookup body c1 with
        | .error e => .error e
        | .ok c2 =>
          let c3 := if c2.behavioral_change_in_namespace then
              { c2 with definitions := c2.definitions ++ [definition] }
            else c2
          .ok { c3 with
            behavioral_change_in_namespace := false,
            current_namespaces := c3.current_namespaces.dropLast }
  | .casgn scope name _ value expression_l, c =>
    match fetch_casgn_name scope name with
    | .error .metaprogramming => .ok c
    | .error .panicOther => .error .panicked
    | .ok name_ =>
      let fully_qualified_name := fqn_for c.current_namespaces name_
      let c1 := { c with definitions := c.definitions
        ++ [({ fully_qualified_name := fully_qualified_name,
               location := loc_to_range expression_l lookup } : ParsedDefinition)] }
      expVisitOpt lookup value c1
  | .send recv method_name args expression_l, c =>
    let association_reference := get_reference_from_active_record_association
      method_name args c.current_namespaces (loc_to_range expression_l lookup)
    let c1 :=
      match association_reference with
      | some r => { c with references := c.references ++ [r] }
      | none => c
    match expVisitOpt lookup recv c1 with
    | .error e => .error e
    | .ok c2 => expVisitList lookup args c2
  | .const scope name expression_l, c =>
    match fetch_const_const_name scope name with
    | .error .metaprogramming => .ok c
    | .error .panicOther => .error .panicked
    | .ok name_ =>
      let namespace_path :=
        c.current_namespaces.filter (fun namespace_ => namespace_ != name_)
      .ok { c with references := c.references
        ++ [({ name := name_, namespace_path := namespace_path,
               location := loc_to_range expression_l lookup } : UnresolvedReference)] }
  | .def_ _ body, c =>
    expVisitOpt lookup body { c with behavioral_change_in_namespace := true }
  | .begin_ statements, c => expVisitList lookup statements c
  | .array elements, c => expVisitList lookup elements c
  | .kwargs pairs, c => expVisitList lookup pairs c
  | .pair key value, c =>
    match expVisit lookup key c with
    | .error e => .error e
    | .ok c1 => expVisit lookup value c1
  | .cbase, c => .ok c
  | .self_, c => .ok c
  | .lvar _, c => .ok c
  | .ivar _, c => .ok c
  | .sym _, c => .ok c
  | .str _, c => .ok c
  | .int _, c => .ok c
termination_by n _ => sizeOf n

/-- Default traversal of an optional child node, lightweight walker. -/
def expVisitOpt (lookup : Nat → Nat × Nat) :
    Option RNode → ExpCollector → Except WalkErr ExpCollector
  | none, c => .ok c
  | some n, c => expVisit lookup n c
termination_by o _ => sizeOf o

/-- Default traversal of a list of child nodes, lightweight walker. -/
def expVisitList (lookup : Nat → Nat × Nat) :
    List RNode → ExpCollector → Except WalkErr ExpCollector
  | [], c => .ok c
  | n :: rest, c =>
    match expVisit lookup n c with
    | .error e => .error e
    | .ok c1 => expVisitList lookup rest c1
termination_by l _ => sizeOf l

end

/-- After process_from_contents in
src/packs/parsing/ruby/experimental/parser.rs lines 174-224.  The
external Ruby parser is the parse argument; a missing tree yields the
empty ProcessedFile; the line-column index is built from the contents. -/
def process_from_contents (parse : String → Option RNode)
    (contents : String) (path : String) : Except WalkErr ProcessedFile :=
  match parse contents with
  | none => .ok { absolute_path := path, unresolved_references := [], definitions := [] }
  | some ast =>
    match expVisit (lineColLookup contents) ast ⟨[], [], [], false⟩ with
    | .error e => .error e
    | .ok collector =>
      .ok { absolute_path := path,
            unresolved_references := collector.references,
            definitions := collector.definitions }

/-- After process_from_contents in
src/packs/parsing/erb/experimental/parser.rs lines 17-41.  The external
convert_erb_to_mangled_ruby transliteration (in file_utils, not among the
given sources) is taken as a function argument; the result of the Ruby
walk has every reference location overwritten with the default Range and
the definitions dropped. -/
def erb_process_from_contents (convert_erb_to_mangled_ruby : String → String)
    (parse : String → Option RNode) (contents : String) (path : String) :
    Except WalkErr ProcessedFile :=
  let ruby_contents := convert_erb_to_mangled_ruby contents
  match process_from_contents parse ruby_contents path with
  | .error e => .error e
  | .ok processed_file =>
    let references := processed_file.unresolved_references
    let references_without_range :=
      references.map (fun r => { r with location := Range.default })
    .ok { absolute_path := path,
          unresolved_references := references_without_range,
          definitions := [] }

mutual

/-- Projection of the lightweight walk: the value of the
behavioral_change_in_namespace flag after traversing a node, given its
value before.  A method definition sets it, a successfully entered class
or module scope clears it on exit, and every other node threads it
through its children in traversal order. -/
def expFlag (f : Bool) : RNode → Bool
  | .class_ nameNode _ _ =>
    match fetch_const_name nameNode with
    | .error _ => f
    | .ok _ => false
  | .module_ nameNode _ =>
    match fetch_const_name nameNode with
    | .error _ => f
    | .ok _ => false
  | .casgn scope name _ value _ =>
    match fetch_casgn_name scope name with
    | .error _ => f
    | .ok _ => expFlagOpt f value
  | .send recv _ args _ => expFlagList (expFlagOpt f recv) args
  | .const _ _ _ => f
  | .def_ _ body => expFlagOpt true body
  | .begin_ statements => expFlagList f statements
  | .array elements => expFlagList f elements
  | .kwargs pairs => expFlagList f pairs
  | .pair key value => expFlag (expFlag f key) value
  | .cbase => f
  | .self_ => f
  | .lvar _ => f
  | .ivar _ => f
  | .sym _ => f
  | .str _ => f
  | .int _ => f
termination_by n => sizeOf n

/-- Flag projection over an optional child. -/
def expFlagOpt (f : Bool) : Option RNode → Bool
  | none => f
  | some n => expFlag f n
termination_by o => sizeOf o

/-- Flag projection over a list of children, left to right. -/
def expFlagList (f : Bool) : List RNode → Bool
  | [] => f
  | n :: rest => expFlagList (expFlag f n) rest
termination_by l => sizeOf l

end

mutual

/-- Projection of the lightweight walk: the definitions a successful walk
of a node appends, given the namespace stack and the flag value at entry.
A class or module contributes the definitions of its superclass
expression and of its body, then its own definition exactly when the flag
is true as the scope closes; a constant assignment always contributes its
definition followed by whatever its value expression contributes. -/
def expDefs (lookup : Nat → Nat × Nat) (nss : List String) (f : Bool) :
    RNode → List ParsedDefinition
  | .class_ nameNode superclass body =>
    match fetch_const_name nameNode with
    | .error _ => []
    | .ok namespace_ =>
      match fetch_node_location nameNode with
      | .error _ => []
      | .ok definition_loc =>
        expDefsOpt lookup nss f superclass
          ++ expDefsOpt lookup (nss ++ [namespace_]) (expFlagOpt f superclass) body
          ++ (if expFlagOpt (expFlagOpt f superclass) body then
                [get_definition_from namespace_ nss (loc_to_range definition_loc lookup)]
              else [])
  | .module_ nameNode body =>
    match fetch_const_name nameNode with
    | .error _ => []
    | .ok namespace_ =>
      match fetch_node_location nameNode with
      | .error _ => []
      | .ok definition_loc =>
        expDefsOpt lookup (nss ++ [namespace_]) f body
          ++ (if expFlagOpt f body then
                [get_definition_from namespace_ nss (loc_to_range definition_loc lookup)]
              else [])
  | .casgn scope name _ value expression_l =>
    match fetch_casgn_name scope name with
    | .error _ => []
    | .ok name_ =>
      ({ fully_qualified_name := fqn_for nss name_,
         location := loc_to_range expression_l lookup } : ParsedDefinition)
        :: expDefsOpt lookup nss f value
  | .send recv _ args _ =>
    expDefsOpt lookup nss f recv ++ expDefsList lookup nss (expFlagOpt f recv) args
  | .const _ _ _ => []
  | .def_ _ body => expDefsOpt lookup nss true body
  | .begin_ statements => expDefsList lookup nss f statements
  | .array elements => expDefsList lookup nss f elements
  | .kwargs pairs => expDefsList lookup nss f pairs
  | .pair key value => expDefs lookup nss f key ++ expDefs lookup nss (expFlag f key) value
  | .cbase => []
  | .self_ => []
  | .lvar _ => []
  | .ivar _ => []
  | .sym _ => []
  | .str _ => []
  | .int _ => []
termination_by n => sizeOf n

/-- Definitions projection over an optional child. -/
def expDefsOpt (lookup : Nat → Nat × Nat) (nss : List String) (f : Bool) :
    Option RNode → List ParsedDefinition
  | none => []
  | some n => expDefs lookup nss f n
termination_by o => sizeOf o

/-- Definitions projection over a list of children, left to right,
threading the flag. -/
def expDefsList (lookup : Nat → Nat × Nat) (nss : List String) (f : Bool) :
    List RNode → List ParsedDefinition
  | [] => []
  | n :: rest => expDefs lookup nss f n ++ expDefsList lookup nss (expFlag f n) rest
termination_by l => sizeOf l

end

/-- The strict walk only appends to the reference and definition lists and
restores the namespace stack. -/
def StrictExtends (c c' : Collector) : Prop :=
  (∃ rs, c'.references = c.references ++ rs)
  ∧ (∃ ds, c'.definitions = c.definitions ++ ds)
  ∧ c'.current_namespaces = c.current_namespaces

theorem StrictExtends.refl (c : Collector) : StrictExtends c c :=
  ⟨⟨[], by simp⟩, ⟨[], by simp⟩, rfl⟩

theorem StrictExtends.trans {a b c : Collector}
    (h1 : StrictExtends a b) (h2 : StrictExtends b c) : StrictExtends a c := by
  obtain ⟨⟨r1, hr1⟩, ⟨d1, hd1⟩, hn1⟩ := h1
  obtain ⟨⟨r2, hr2⟩, ⟨d2, hd2⟩, hn2⟩ := h2
  exact ⟨⟨r1 ++ r2, by rw [hr2, hr1, List.append_assoc]⟩,
         ⟨d1 ++ d2, by rw [hd2, hd1, List.append_assoc]⟩, hn2.trans hn1⟩

mutual

theorem visit_mono (lookup : Nat → Nat × Nat) :
    ∀ (n : RNode) (c c' : Collector), visit lookup n c = .ok c' → StrictExtends c c' := by
  intro n c c' h
  match n with
  | .class_ nameNode superclass body =>
    rw [visit] at h
    split at h
    · exact (Except.ok.inj h) ▸ StrictExtends.refl c
    · exact Except.noConfusion h
    · rename_i namespace_ hns
      split at h
      · exact Except.noConfusion h
      · rename_i c1 hsup
        split at h
        · exact Except.noConfusion h
        · rename_i definition_loc hloc
          try dsimp only at h
          split at h
          · exact Except.noConfusion h
          · rename_i c5 hbody
            have hc1 := visitSuperclassOpt_mono lookup superclass c c1 hsup
            have hc5 := visitOpt_mono lookup body _ c5 hbody
            obtain ⟨⟨r1, hr1⟩, ⟨d1, hd1⟩, hn1⟩ := hc1
            obtain ⟨⟨r5, hr5⟩, ⟨d5, hd5⟩, hn5⟩ := hc5
            try dsimp only at hr5 hd5 hn5
            have hc' : c' = { c5 with
                current_namespaces := c5.current_namespaces.dropLast,
                superclasses := c5.superclasses.dropLast } := (Except.ok.inj h).symm
            subst hc'
            refine ⟨⟨r1 ++ [⟨fqn_for c1.current_namespaces namespace_,
                c1.current_namespaces ++ [namespace_],
                loc_to_range definition_loc lookup⟩] ++ r5, ?_⟩,
              ⟨d1 ++ [⟨fqn_for c1.current_namespaces namespace_,
                loc_to_range definition_loc lookup,
                c1.current_namespaces ++ [namespace_]⟩] ++ d5, ?_⟩, ?_⟩
            · show c5.references = _
              rw [hr5, hr1]
              simp [List.append_assoc]
            · show c5.definitions = _
              rw [hd5, hd1]
              simp [List.append_assoc]
            · show c5.current_namespaces.dropLast = c.current_namespaces
              rw [hn5]
              simp [hn1]
  | .module_ nameNode body =>
    rw [visit] at h
    split at h
    · exact Except.noConfusion h
    · rename_i namespace_ hns
      split at h
      · exact Except.noConfusion h
      · rename_i definition_loc hloc
        try dsimp only at h
        split at h
        · exact Except.noConfusion h
        · rename_i c4 hbody
          have hc4 := visitOpt_mono lookup body _ c4 hbody
          obtain ⟨⟨r4, hr4⟩, ⟨d4, hd4⟩, hn4⟩ := hc4
          try dsimp only at hr4 hd4 hn4
          have hc' : c' = { c4 with
              current_namespaces := c4.current_namespaces.dropLast } := (Except.ok.inj h).symm
          subst hc'
          refine ⟨⟨[⟨fqn_for c.current_namespaces namespace_,
              c.current_namespaces ++ [namespace_],
              loc_to_range definition_loc lookup⟩] ++ r4, ?_⟩,
            ⟨[⟨fqn_for c.current_namespaces namespace_,
              loc_to_range definition_loc lookup,
              c.current_namespaces ++ [namespace_]⟩] ++ d4, ?_⟩, ?_⟩
          · show c4.references = _
            rw [hr4]
            simp [List.append_assoc]
          · show c4.definitions = _
            rw [hd4]
            simp [List.append_assoc]
          · show c4.current_namespaces.dropLast = c.current_namespaces
            rw [hn4]
            simp
  | .casgn scope name name_l value expression_l =>
    rw [visit] at h
    split at h
    · exact (Except.ok.inj h) ▸ StrictExtends.refl c
    · exact Except.noConfusion h
    · rename_i name_ hname
      try dsimp only at h
      have hval := visitOpt_mono lookup value _ c' h
      obtain ⟨⟨rv, hrv⟩, ⟨dv, hdv⟩, hnv⟩ := hval
      try dsimp only at hrv hdv hnv
      refine ⟨⟨rv, hrv⟩, ⟨[⟨fqn_for c.current_namespaces name_,
          loc_to_range expression_l lookup,
          c.current_namespaces⟩] ++ dv, ?_⟩, hnv⟩
      rw [hdv]
      simp [List.append_assoc]
  | .send recv method_name args expression_l =>
    rw [visit] at h
    try dsimp only at h
    split at h
    · exact Except.noConfusion h
    · rename_i c2 hrecv
      have h1 := visitOpt_mono lookup recv _ c2 hrecv
      have h2 := visitList_mono lookup args c2 c' h
      obtain ⟨⟨r1, hr1⟩, ⟨d1, hd1⟩, hn1⟩ := h1
      obtain ⟨⟨r2, hr2⟩, ⟨d2, hd2⟩, hn2⟩ := h2
      try dsimp only at hr1 hd1 hn1
      refine ⟨⟨strict_association_references method_name args c.current_namespaces
          (loc_to_range expression_l lookup) ++ r1 ++ r2, ?_⟩, ⟨d1 ++ d2, ?_⟩, ?_⟩
      · rw [hr2, hr1]
        simp [List.append_assoc]
      · rw [hd2, hd1]
        simp [List.append_assoc]
      · rw [hn2, hn1]
  | .const scope name expression_l =>
    rw [visit] at h
    split at h
    · exact (Except.ok.inj h) ▸ StrictExtends.refl c
    · exact Except.noConfusion h
    · rename_i name_ hname
      try dsimp only at h
      have hc' := (Except.ok.inj h).symm
      subst hc'
      by_cases hsc : c.in_superclass
      · simp only [hsc, if_true]
        exact ⟨⟨_, rfl⟩, ⟨[], by simp⟩, rfl⟩
      · simp only [hsc, if_false]
        exact ⟨⟨_, rfl⟩, ⟨[], by simp⟩, rfl⟩
  | .begin_ statements =>
    rw [visit] at h
    exact visitList_mono lookup statements c c' h
  | .def_ name body =>
    rw [visit] at h
    exact visitOpt_mono lookup body c c' h
  | .array elements =>
    rw [visit] at h
    exact visitList_mono lookup elements c c' h
  | .kwargs pairs =>
    rw [visit] at h
    exact visitList_mono lookup pairs c c' h
  | .pair key value =>
    rw [visit] at h
    split at h
    · exact Except.noConfusion h
    · rename_i c1 hk
      exact (visit_mono lookup key c c1 hk).trans (visit_mono lookup value c1 c' h)
  | .cbase => rw [visit] at h; exact (Except.ok.inj h) ▸ StrictExtends.refl c
  | .self_ => rw [visit] at h; exact (Except.ok.inj h) ▸ StrictExtends.refl c
  | .lvar a => rw [visit] at h; exact (Except.ok.inj h) ▸ StrictExtends.refl c
  | .ivar a => rw [visit] at h; exact (Except.ok.inj h) ▸ StrictExtends.refl c
  | .sym a => rw [visit] at h; exact (Except.ok.inj h) ▸ StrictExtends.refl c
  | .str a => rw [visit] at h; exact (Except.ok.inj h) ▸ StrictExtends.refl c
  | .int a => rw [visit] at h; exact (Except.ok.inj h) ▸ StrictExtends.refl c
termination_by n => sizeOf n

theorem visitSuperclassOpt_mono (lookup : Nat → Nat × Nat) :
    ∀ (o : Option RNode) (c c' : Collector),
      visitSuperclassOpt lookup o c = .ok c' → StrictExtends c c' := by
  intro o c c' h
  match o with
  | none =>
    rw [visitSuperclassOpt] at h
    exact (Except.ok.inj h) ▸ StrictExtends.refl c
  | some inner =>
    rw [visitSuperclassOpt] at h
    split at h
    · exact Except.noConfusion h
    · rename_i c1 hv
      have h1 := visit_mono lookup inner _ c1 hv
      obtain ⟨⟨r1, hr1⟩, ⟨d1, hd1⟩, hn1⟩ := h1
      try dsimp only at hr1 hd1 hn1
      have hc' : c' = { c1 with in_superclass := false } := (Except.ok.inj h).symm
      subst hc'
      exact ⟨⟨r1, hr1⟩, ⟨d1, hd1⟩, hn1⟩
termination_by o => sizeOf o

theorem visitOpt_mono (lookup : Nat → Nat × Nat) :
    ∀ (o : Option RNode) (c c' : Collector),
      visitOpt lookup o c = .ok c' → StrictExtends c c' := by
  intro o c c' h
  match o with
  | none =>
    rw [visitOpt] at h
    exact (Except.ok.inj h) ▸ StrictExtends.refl c
  | some n =>
    rw [visitOpt] at h
    exact visit_mono lookup n c c' h
termination_by o => sizeOf o

theorem visitList_mono (lookup : Nat → Nat × Nat) :
    ∀ (l : List RNode) (c c' : Collector),
      visitList lookup l c = .ok c' → StrictExtends c c' := by
  intro l c c' h
  match l with
  | [] =>
    rw [visitList] at h
    exact (Except.ok.inj h) ▸ StrictExtends.refl c
  | n :: rest =>
    rw [visitList] at h
    split at h
    · exact Except.noConfusion h
    · rename_i c1 hn
      exact (visit_mono lookup n c c1 hn).trans (visitList_mono lookup rest c1 c' h)
termination_by l => sizeOf l

end

mutual

theorem expVisit_sim (lookup : Nat → Nat × Nat) :
    ∀ (n : RNode) (c c' : ExpCollector), expVisit lookup n c = .ok c' →
      c'.definitions = c.definitions
          ++ expDefs lookup c.current_namespaces c.behavioral_change_in_namespace n
      ∧ c'.current_namespaces = c.current_namespaces
      ∧ c'.behavioral_change_in_namespace
          = expFlag c.behavioral_change_in_namespace n := by
  intro n c c' h
  match n with
  | .class_ nameNode superclass body =>
    rw [expVisit] at h
    split at h
    · rename_i hns
      have hc' := (Except.ok.inj h).symm
      subst hc'
      refine ⟨?_, rfl, ?_⟩
      · simp [expDefs, hns]
      · simp [expFlag, hns]
    · exact Except.noConfusion h
    · rename_i namespace_ hns
      split at h
      · exact Except.noConfusion h
      · rename_i c1 hsup
        split at h
        · exact Except.noConfusion h
        · rename_i definition_loc hloc
          try dsimp only at h
          split at h
          · exact Except.noConfusion h
          · rename_i c3 hbody
            obtain ⟨hd1, hn1, hf1⟩ := expVisitOpt_sim lookup superclass c c1 hsup
            obtain ⟨hd3, hn3, hf3⟩ := expVisitOpt_sim lookup body _ c3 hbody
            try dsimp only at hd3 hn3 hf3
            have hcond : expFlagOpt (expFlagOpt c.behavioral_change_in_namespace superclass) body
                = c3.behavioral_change_in_namespace := by
              rw [hf3, hf1]
            by_cases hf : c3.behavioral_change_in_namespace
            · simp only [hf, if_true] at h
              have hc' := (Except.ok.inj h).symm
              subst hc'
              refine ⟨?_, ?_, by simp [expFlag, hns]⟩
              · show c3.definitions ++ [_] = _
                rw [hd3, hd1]
                simp only [expDefs, hns, hloc]
                rw [hn1, hf1, hcond, hf]
                simp [List.append_assoc]
              · show c3.current_namespaces.dropLast = _
                rw [hn3]
                simp [hn1]
            · simp only [hf, if_false] at h
              have hc' := (Except.ok.inj h).symm
              subst hc'
              refine ⟨?_, ?_, by simp [expFlag, hns]⟩
              · show c3.definitions = _
                rw [hd3, hd1]
                simp only [expDefs, hns, hloc]
                rw [hn1, hf1, hcond]
                simp only [hf, Bool.false_eq_true, if_false]
                simp [List.append_assoc]
              · show c3.current_namespaces.dropLast = _
                rw [hn3]
                simp [hn1]
  | .module_ nameNode body =>
    rw [expVisit] at h
    split at h
    · exact Except.noConfusion h
    · rename_i namespace_ hns
      split at h
      · exact Except.noConfusion h
      · rename_i definition_loc hloc
        try dsimp only at h
        split at h
        · exact Except.noConfusion h
        · rename_i c2 hbody
          obtain ⟨hd2, hn2, hf2⟩ := expVisitOpt_sim lookup body _ c2 hbody
          try dsimp only at hd2 hn2 hf2
          have hcond : expFlagOpt c.behavioral_change_in_namespace body
              = c2.behavioral_change_in_namespace := hf2.symm
          by_cases hf : c2.behavioral_change_in_namespace
          · simp only [hf, if_true] at h
            have hc' := (Except.ok.inj h).symm
            subst hc'
            refine ⟨?_, ?_, by simp [expFlag, hns]⟩
            · show c2.definitions ++ [_] = _
              rw [hd2]
              simp only [expDefs, hns, hloc]
              rw [hcond, hf]
              simp [List.append_assoc]
            · show c2.current_namespaces.dropLast = _
              rw [hn2]
              simp
          · simp only [hf, if_false] at h
            have hc' := (Except.ok.inj h).symm
            subst hc'
            refine ⟨?_, ?_, by simp [expFlag, hns]⟩
            · show c2.definitions = _
              rw [hd2]
              simp only [expDefs, hns, hloc]
              rw [hcond]
              simp only [hf, Bool.false_eq_true, if_false]
              simp [List.append_assoc]
            · show c2.current_namespaces.dropLast = _
              rw [hn2]
              simp
  | .casgn scope name name_l value expression_l =>
    rw [expVisit] at h
    split at h
    · rename_i hname
      have hc' := (Except.ok.inj h).symm
      subst hc'
      refine ⟨?_, rfl, ?_⟩
      · simp [expDefs, hname]
      · simp [expFlag, hname]
    · exact Except.noConfusion h
    · rename_i name_ hname
      try dsimp only at h
      obtain ⟨hdv, hnv, hfv⟩ := expVisitOpt_sim lookup value _ c' h
      try dsimp only at hdv hnv hfv
      refine ⟨?_, hnv, ?_⟩
      · rw [hdv]
        simp only [expDefs, hname]
        simp [List.append_assoc]
      · rw [hfv]
        simp [expFlag, hname]
  | .send recv method_name args expression_l =>
    rw [expVisit] at h
    try dsimp only at h
    cases hga : get_reference_from_active_record_association method_name args
        c.current_namespaces (loc_to_range expression_l lookup) with
    | none =>
      rw [hga] at h
      try dsimp only at h
      split at h
      · exact Except.noConfusion h
      · rename_i c2 hrecv
        obtain ⟨hd1, hn1, hf1⟩ := expVisitOpt_sim lookup recv _ c2 hrecv
        obtain ⟨hd2, hn2, hf2⟩ := expVisitList_sim lookup args c2 c' h
        refine ⟨?_, ?_, ?_⟩
        · rw [hd2, hd1]
          simp only [expDefs]
          rw [hn1, hf1]
          simp [List.append_assoc]
        · rw [hn2, hn1]
        · rw [hf2, hf1]
          simp [expFlag]
    | some r =>
      rw [hga] at h
      try dsimp only at h
      split at h
      · exact Except.noConfusion h
      · rename_i c2 hrecv
        obtain ⟨hd1, hn1, hf1⟩ := expVisitOpt_sim lookup recv _ c2 hrecv
        obtain ⟨hd2, hn2, hf2⟩ := expVisitList_sim lookup args c2 c' h
        try dsimp only at hd1 hn1 hf1
        refine ⟨?_, ?_, ?_⟩
        · rw [hd2, hd1]
          simp only [expDefs]
          rw [hn1, hf1]
          simp [List.append_assoc]
        · rw [hn2, hn1]
        · rw [hf2, hf1]
          simp [expFlag]
  | .const scope name expression_l =>
    rw [expVisit] at h
    split at h
    · rename_i hname
      have hc' := (Except.ok.inj h).symm
      subst hc'
      exact ⟨by simp [expDefs], rfl, by simp [expFlag]⟩
    · exact Except.noConfusion h
    · rename_i name_ hname
      try dsimp only at h
      have hc' := (Except.ok.inj h).symm
      subst hc'
      exact ⟨by simp [expDefs], rfl, by simp [expFlag]⟩
  | .def_ name body =>
    rw [expVisit] at h
    obtain ⟨hd, hn, hf⟩ := expVisitOpt_sim lookup body _ c' h
    try dsimp only at hd hn hf
    exact ⟨by rw [hd]; simp [expDefs], hn, by rw [hf]; simp [expFlag]⟩
  | .begin_ statements =>
    rw [expVisit] at h
    obtain ⟨hd, hn, hf⟩ := expVisitList_sim lookup statements c c' h
    exact ⟨by rw [hd]; simp [expDefs], hn, by rw [hf]; simp [expFlag]⟩
  | .array elements =>
    rw [expVisit] at h
    obtain ⟨hd, hn, hf⟩ := expVisitList_sim lookup elements c c' h
    exact ⟨by rw [hd]; simp [expDefs], hn, by rw [hf]; simp [expFlag]⟩
  | .kwargs pairs =>
    rw [expVisit] at h
    obtain ⟨hd, hn, hf⟩ := expVisitList_sim lookup pairs c c' h
    exact ⟨by rw [hd]; simp [expDefs], hn, by rw [hf]; simp [expFlag]⟩
  | .pair key value =>
    rw [expVisit] at h
    split at h
    · exact Except.noConfusion h
    · rename_i c1 hk
      obtain ⟨hd1, hn1, hf1⟩ := expVisit_sim lookup key c c1 hk
      obtain ⟨hd2, hn2, hf2⟩ := expVisit_sim lookup value c1 c' h
      refine ⟨?_, hn2.trans hn1, ?_⟩
      · rw [hd2, hd1]
        simp only [expDefs]
        rw [hn1, hf1]
        simp [List.append_assoc]
      · rw [hf2, hf1]
        simp [expFlag]
  | .cbase =>
    rw [expVisit] at h
    have hc' := (Except.ok.inj h).symm
    subst hc'
    exact ⟨by simp [expDefs], rfl, by simp [expFlag]⟩
  | .self_ =>
    rw [expVisit] at h
    have hc' := (Except.ok.inj h).symm
    subst hc'
    exact ⟨by simp [expDefs], rfl, by simp [expFlag]⟩
  | .lvar a =>
    rw [expVisit] at h
    have hc' := (Except.ok.inj h).symm
    subst hc'
    exact ⟨by simp [expDefs], rfl, by simp [expFlag]⟩
  | .ivar a =>
    rw [expVisit] at h
    have hc' := (Except.ok.inj h).symm
    subst hc'
    exact ⟨by simp [expDefs], rfl, by simp [expFlag]⟩
  | .sym a =>
    rw [expVisit] at h
    have hc' := (Except.ok.inj h).symm
    subst hc'
    exact ⟨by simp [expDefs], rfl, by simp [expFlag]⟩
  | .str a =>
    rw [expVisit] at h
    have hc' := (Except.ok.inj h).symm
    subst hc'
    exact ⟨by simp [expDefs], rfl, by simp [expFlag]⟩
  | .int a =>
    rw [expVisit] at h
    have hc' := (Except.ok.inj h).symm
    subst hc'
    exact ⟨by simp [expDefs], rfl, by simp [expFlag]⟩
termination_by n => sizeOf n

theorem expVisitOpt_sim (lookup : Nat → Nat × Nat) :
    ∀ (o : Option RNode) (c c' : ExpCollector), expVisitOpt lookup o c = .ok c' →
      c'.definitions = c.definitions
          ++ expDefsOpt lookup c.current_namespaces c.behavioral_change_in_namespace o
      ∧ c'.current_namespaces = c.current_namespaces
      ∧ c'.behavioral_change_in_namespace
          = expFlagOpt c.behavioral_change_in_namespace o := by
  intro o c c' h
  match o with
  | none =>
    rw [expVisitOpt] at h
    have hc' := (Except.ok.inj h).symm
    subst hc'
    exact ⟨by simp [expDefsOpt], rfl, by simp [expFlagOpt]⟩
  | some n =>
    rw [expVisitOpt] at h
    obtain ⟨hd, hn, hf⟩ := expVisit_sim lookup n c c' h
    exact ⟨by rw [hd]; simp [expDefsOpt], hn, by rw [hf]; simp [expFlagOpt]⟩
termination_by o => sizeOf o

theorem expVisitList_sim (lookup : Nat → Nat × Nat) :
    ∀ (l : List RNode) (c c' : ExpCollector), expVisitList lookup l c = .ok c' →
      c'.definitions = c.definitions
          ++ expDefsList lookup c.current_namespaces c.behavioral_change_in_namespace l
      ∧ c'.current_namespaces = c.current_namespaces
      ∧ c'.behavioral_change_in_namespace
          = expFlagList c.behavioral_change_in_namespace l := by
  intro l c c' h
  match l with
  | [] =>
    rw [expVisitList] at h
    have hc' := (Except.ok.inj h).symm
    subst hc'
    exact ⟨by simp [expDefsList], rfl, by simp [expFlagList]⟩
  | n :: rest =>
    rw [expVisitList] at h
    split at h
    · exact Except.noConfusion h
    · rename_i c1 hn
      obtain ⟨hd1, hn1, hf1⟩ := expVisit_sim lookup n c c1 hn
      obtain ⟨hd2, hn2, hf2⟩ := expVisitList_sim lookup rest c1 c' h
      refine ⟨?_, hn2.trans hn1, ?_⟩
      · rw [hd2, hd1]
        simp only [expDefsList]
        rw [hn1, hf1]
        simp [List.append_assoc]
      · rw [hf2, hf1]
        simp [expFlagList]
termination_by l => sizeOf l

end

/-- The last hit of the local filtering pass for a reference: the last
expansion candidate that is found in the local definition map (directly
or through the root-anchored fallback probe), if any. -/
def lastLocalHit (definition_to_location_map : List (String × Range)) (r : Reference) :
    Option Range :=
  (r.possible_fully_qualified_constants.filterMap
    (fun constant_name => (List.lookup constant_name definition_to_location_map).or
      (List.lookup ("::" ++ constant_name) definition_to_location_map))).getLast?

/-- A reference is kept by the local filtering pass exactly when either no
expansion candidate is found in the local definition map, or the last
candidate found records the same starting row and column as the
reference itself. -/
def keptByLastHit (definition_to_location_map : List (String × Range)) (r : Reference) : Bool :=
  (lastLocalHit definition_to_location_map r).elim true
    (fun location => location.start_row == r.location.start_row
      && location.start_col == r.location.start_col)

theorem foldl_last_match {α β : Type} (g : α → Option β) (p : β → Bool)
    (f : Bool → α → Bool)
    (hf : ∀ flag x, f flag x = (g x).elim flag p) :
    ∀ (l : List α) (b : Bool),
      l.foldl f b = ((l.filterMap g).getLast?).elim b p := by
  intro l
  induction l with
  | nil => intro b; rfl
  | cons x t ih =>
    intro b
    rw [List.foldl_cons, ih, hf b x]
    cases hg : g x with
    | none =>
      rw [List.filterMap_cons_none hg, Option.elim_none]
    | some v =>
      rw [List.filterMap_cons_some hg]
      cases hfm : t.filterMap g with
      | nil => simp
      | cons y ys =>
        rw [List.getLast?_cons_cons]
        cases hlast : (y :: ys).getLast? with
        | none =>
          rw [List.getLast?_eq_none_iff] at hlast
          exact List.noConfusion hlast
        | some w => simp

/-- The fold of the local filtering pass is decided by the last matching
candidate. -/
theorem should_ignore_eq_lastLocalHit (m : List (String × Range)) (r : Reference) :
    should_ignore_local_reference m r = !(keptByLastHit m r) := by
  unfold should_ignore_local_reference keptByLastHit lastLocalHit
  rw [foldl_last_match
    (fun constant_name => (List.lookup constant_name m).or (List.lookup ("::" ++ constant_name) m))
    (fun location => !(location.start_row == r.location.start_row
      && location.start_col == r.location.start_col))]
  · cases ((r.possible_fully_qualified_constants.filterMap
        (fun constant_name => (List.lookup constant_name m).or
          (List.lookup ("::" ++ constant_name) m))).getLast?) with
    | none => rfl
    | some location => rfl
  · intro flag constant_name
    cases (List.lookup constant_name m).or (List.lookup ("::" ++ constant_name) m) with
    | none => rfl
    | some location =>
      show (if location.start_row == r.location.start_row
          && location.start_col == r.location.start_col then false else true)
        = !(location.start_row == r.location.start_row
          && location.start_col == r.location.start_col)
      cases location.start_row == r.location.start_row
          && location.start_col == r.location.start_col with
      | true => rfl
      | false => rfl

/-- Claim C3, amended.  The local filtering pass keeps a reference exactly
when either no expansion candidate of the reference is found in the local
definition map, or the last candidate found records the same starting row
and column as the reference (the fold overwrites its flag at every match,
so the last match decides).  In particular a declaration self-use, whose
root-anchored name is its only candidate, is never removed provided the
local map sends that name to the self-use location itself, which holds
whenever the fully qualified name is defined only once in the file.  The
claim as frozen is stronger - it says a self-use is never removed - and
fails when the same fully qualified name is defined twice, because the
map keeps only the last definition location (see the counterexample). -/
theorem claim_c3_local_filter_amended :
    (∀ (m : List (String × Range)) (references : List Reference),
       filter_local_references m references
         = references.filter (fun r => keptByLastHit m r))
    ∧ (∀ (m : List (String × Range)) (references : List Reference) (r : Reference),
       r ∈ references → startsWithColonColon r.name = true →
       List.lookup r.name m = some r.location →
       r ∈ filter_local_references m references) := by
  constructor
  · intro m references
    unfold filter_local_references
    refine List.filter_congr ?_
    intro r _
    rw [should_ignore_eq_lastLocalHit, Bool.not_not]
  · intro m references r hmem hstart hlook
    unfold filter_local_references
    rw [List.mem_filter]
    refine ⟨hmem, ?_⟩
    rw [should_ignore_eq_lastLocalHit, Bool.not_not]
    unfold keptByLastHit lastLocalHit Reference.possible_fully_qualified_constants
    rw [hstart]
    simp [hlook]

/-- Counterexample to claim C3 as frozen.  The file
class Foo
end
class Foo
end
declares ::Foo twice; the local definition map keeps only the second
location, so the first declaration self-use (the SymbolUse sharing the
first declaration span) is matched at a different location and removed:
only the second self-use survives, refuting the claim that the pair
sharing a declaration span is never removed. -/
theorem claim_c3_local_filter_counterexample :
    extract_from_contents (fun i => (1, i + 1))
      (some (.begin_ [
        .class_ (.const none "Foo" ⟨6, 9⟩) none none,
        .class_ (.const none "Foo" ⟨20, 23⟩) none none]))
    = .ok [⟨"::Foo", ["Foo"], ⟨1, 20, 1, 24⟩⟩] := by
  simp [extract_from_contents, visit, visitList, visitOpt, visitSuperclassOpt,
    fetch_const_name, fetch_node_location, loc_to_range, fqn_for, joinColons,
    filter_local_references, should_ignore_local_reference,
    Reference.possible_fully_qualified_constants, calculate_module_nesting,
    calculate_module_nesting_step, List.lookup]
  decide

/-- Witness for the amended claim C3: a lone declaration self-use whose
name maps to its own location is kept. -/
theorem claim_c3_local_filter_witness :
    (⟨"::Foo", ["Foo"], ⟨1, 6, 1, 10⟩⟩ : Reference)
        ∈ [(⟨"::Foo", ["Foo"], ⟨1, 6, 1, 10⟩⟩ : Reference)]
    ∧ startsWithColonColon "::Foo" = true
    ∧ List.lookup "::Foo" [("::Foo", (⟨1, 6, 1, 10⟩ : Range))]
        = some ⟨1, 6, 1, 10⟩
    ∧ (⟨"::Foo", ["Foo"], ⟨1, 6, 1, 10⟩⟩ : Reference)
        ∈ filter_local_references [("::Foo", ⟨1, 6, 1, 10⟩)]
            [⟨"::Foo", ["Foo"], ⟨1, 6, 1, 10⟩⟩] :=
  ⟨by decide, by decide, by decide,
   claim_c3_local_filter_amended.2 [("::Foo", ⟨1, 6, 1, 10⟩)]
     [⟨"::Foo", ["Foo"], ⟨1, 6, 1, 10⟩⟩] ⟨"::Foo", ["Foo"], ⟨1, 6, 1, 10⟩⟩
     (by decide) (by decide) (by decide)⟩

/-- Claim C4, amended.  A class or module definition is retained by the
lightweight walker exactly when the behavioral_change_in_namespace flag
is true as the scope body finishes.  The flag (characterized by the
expFlag projection, proved equivalent in expVisit_sim) is set by every
method-definition node traversed and cleared only when a scope exits; it
is NOT reset when a scope is entered, so it is shared across scopes in
traversal order.  Consequently retention does not mean a def directly
within this scope body: a def in the enclosing body since the last scope
exit also causes retention (see the counterexample), and a def placed
before a nested scope is consumed by that nested scope exit.  The
reset-on-exit part of the frozen claim does hold: the flag is false after
every successfully walked class or module node. -/
theorem claim_c4_behavior_flag_amended :
    (∀ (lookup : Nat → Nat × Nat) (nameNode : RNode) (superclass body : Option RNode)
       (c c' : ExpCollector) (namespace_ : String) (definition_loc : Loc),
       fetch_const_name nameNode = .ok namespace_ →
       fetch_node_location nameNode = .ok definition_loc →
       expVisit lookup (.class_ nameNode superclass body) c = .ok c' →
       c'.definitions
         = c.definitions
           ++ expDefsOpt lookup c.current_namespaces c.behavioral_change_in_namespace superclass
           ++ expDefsOpt lookup (c.current_namespaces ++ [namespace_])
                (expFlagOpt c.behavioral_change_in_namespace superclass) body
           ++ (if expFlagOpt (expFlagOpt c.behavioral_change_in_namespace superclass) body then
                 [get_definition_from namespace_ c.current_namespaces
                    (loc_to_range definition_loc lookup)]
               else [])
         ∧ c'.behavioral_change_in_namespace = false)
    ∧ (∀ (lookup : Nat → Nat × Nat) (nameNode : RNode) (body : Option RNode)
       (c c' : ExpCollector) (namespace_ : String) (definition_loc : Loc),
       fetch_const_name nameNode = .ok namespace_ →
       fetch_node_location nameNode = .ok definition_loc →
       expVisit lookup (.module_ nameNode body) c = .ok c' →
       c'.definitions
         = c.definitions
           ++ expDefsOpt lookup (c.current_namespaces ++ [namespace_])
                c.behavioral_change_in_namespace body
           ++ (if expFlagOpt c.behavioral_change_in_namespace body then
                 [get_definition_from namespace_ c.current_namespaces
                    (loc_to_range definition_loc lookup)]
               else [])
         ∧ c'.behavioral_change_in_namespace = false) := by
  constructor
  · intro lookup nameNode superclass body c c' namespace_ definition_loc hns hloc hvisit
    obtain ⟨hd, hn, hf⟩ := expVisit_sim lookup _ c c' hvisit
    constructor
    · rw [hd]
      simp only [expDefs, hns, hloc]
      simp [List.append_assoc, expDefsOpt, expFlagOpt]
    · rw [hf]
      simp [expFlag, hns]
  · intro lookup nameNode body c c' namespace_ definition_loc hns hloc hvisit
    obtain ⟨hd, hn, hf⟩ := expVisit_sim lookup _ c c' hvisit
    constructor
    · rw [hd]
      simp only [expDefs, hns, hloc]
      simp [List.append_assoc, expDefsOpt, expFlagOpt]
    · rw [hf]
      simp [expFlag, hns]

/-- Counterexample to claim C4 as frozen.  In
class A
  def m
  end
  class B
  end
end
the method definition m sits directly within the body of A, and B merely
reopens an empty namespace.  The claim says A is retained and B is not;
the walker does the opposite: the flag set by m is still true when B
closes (retaining ::A::B) and is then reset, so A closes with a false
flag and is not retained.  The walk returns exactly one definition,
::A::B. -/
theorem claim_c4_behavior_flag_counterexample :
    expVisit (fun i => (1, i + 1))
      (.class_ (.const none "A" ⟨6, 7⟩) none (some (.begin_ [
        .def_ "m" none,
        .class_ (.const none "B" ⟨20, 21⟩) none none])))
      ⟨[], [], [], false⟩
    = .ok ⟨[], [⟨"::A::B", ⟨1, 20, 1, 22⟩⟩], [], false⟩ := by
  simp [expVisit, expVisitList, expVisitOpt, fetch_const_name, fetch_node_location,
    loc_to_range, fqn_for, joinColons, get_definition_from]

/-- Witness for the amended claim C4 at a concrete scope that is retained
because a method definition directly precedes the scope close. -/
theorem claim_c4_behavior_flag_witness :
    fetch_const_name (RNode.const none "A" ⟨6, 7⟩) = .ok "A"
    ∧ fetch_node_location (RNode.const none "A" ⟨6, 7⟩) = .ok ⟨6, 7⟩
    ∧ expVisit (fun i => (1, i + 1))
        (.class_ (.const none "A" ⟨6, 7⟩) none (some (.begin_ [.def_ "m" none])))
        ⟨[], [], [], false⟩
      = .ok ⟨[], [⟨"::A", ⟨1, 6, 1, 8⟩⟩], [], false⟩
    ∧ ((⟨[], [⟨"::A", ⟨1, 6, 1, 8⟩⟩], [], false⟩ : ExpCollector).definitions
        = ([] : List ParsedDefinition)
          ++ expDefsOpt (fun i => (1, i + 1)) [] false none
          ++ expDefsOpt (fun i => (1, i + 1)) ["A"] (expFlagOpt false none)
              (some (.begin_ [.def_ "m" none]))
          ++ (if expFlagOpt (expFlagOpt false none) (some (.begin_ [.def_ "m" none])) then
                [get_definition_from "A" [] (loc_to_range ⟨6, 7⟩ (fun i => (1, i + 1)))]
              else [])
        ∧ (⟨[], [⟨"::A", ⟨1, 6, 1, 8⟩⟩], [], false⟩ : ExpCollector).behavioral_change_in_namespace
            = false) := by
  have heval : expVisit (fun i => (1, i + 1))
      (.class_ (.const none "A" ⟨6, 7⟩) none (some (.begin_ [.def_ "m" none])))
      ⟨[], [], [], false⟩
      = .ok ⟨[], [⟨"::A", ⟨1, 6, 1, 8⟩⟩], [], false⟩ := by
    simp [expVisit, expVisitList, expVisitOpt, fetch_const_name, fetch_node_location,
      loc_to_range, fqn_for, joinColons, get_definition_from]
  exact ⟨rfl, rfl, heval,
    claim_c4_behavior_flag_amended.1 (fun i => (1, i + 1)) (.const none "A" ⟨6, 7⟩)
      none (some (.begin_ [.def_ "m" none])) ⟨[], [], [], false⟩
      ⟨[], [⟨"::A", ⟨1, 6, 1, 8⟩⟩], [], false⟩ "A" ⟨6, 7⟩ rfl rfl heval⟩

/-- Claim C5: the code violates it.  on_class pops the superclasses stack
unconditionally at exit (src/packs/parser.rs line 228), even when the
class declared no superclass and pushed nothing.  Here the strict walker
traverses class C (no superclass) while an InheritanceLink for B -
pushed by an enclosing declaration class A < B - is active: after the
traversal the stack is empty instead of still holding the link, so the
link does not live for the duration of the scope that declared it.  In
the full file class A < B with a nested class C and a later body use of
B, that use is then attributed to scope path [A] instead of the captured
scope path [] of the superclass declaration. -/
theorem claim_c5_inheritance_link_pop :
    visit (fun i => (1, i + 1))
      (.class_ (.const none "C" ⟨18, 19⟩) none none)
      ⟨[], [], ["A"], false, [⟨"B", []⟩]⟩
    = .ok ⟨[⟨"::A::C", ["A", "C"], ⟨1, 18, 1, 20⟩⟩],
           [⟨"::A::C", ⟨1, 18, 1, 20⟩, ["A", "C"]⟩], ["A"], false, []⟩ := by
  simp [visit, visitOpt, visitSuperclassOpt, fetch_const_name, fetch_node_location,
    loc_to_range, fqn_for, joinColons]

/-- Claim C6, amended.  For a class declaration whose name has a segment
that is not a statically known literal path, both walkers skip the node
entirely and non-fatally: the collector is returned unchanged (no
definition, no descent, traversal of the rest of the file continues).
For a module declaration, however, both walkers resolve the name through
an expect that panics on the metaprogramming failure, so a dynamic module
name aborts the whole walk instead of being skipped silently: the frozen
claim holds only for class declarations. -/
theorem claim_c6_dynamic_name_amended :
    ∀ (lookup : Nat → Nat × Nat) (nameNode : RNode) (superclass body mbody : Option RNode)
      (c : Collector) (ec : ExpCollector),
      fetch_const_name nameNode = .error .metaprogramming →
      visit lookup (.class_ nameNode superclass body) c = .ok c
      ∧ expVisit lookup (.class_ nameNode superclass body) ec = .ok ec
      ∧ visit lookup (.module_ nameNode mbody) c = .error .panicked
      ∧ expVisit lookup (.module_ nameNode mbody) ec = .error .panicked := by
  intro lookup nameNode superclass body mbody c ec h
  refine ⟨?_, ?_, ?_, ?_⟩
  · rw [visit, h]
  · rw [expVisit, h]
  · rw [visit, h]
  · rw [expVisit, h]

/-- Counterexample to claim C6 as frozen: module self::Foo has a
self-reference segment in its declared name, and the strict walker
panics (aborts the walk) instead of skipping the node silently.  The
lightweight walker panics on the same input as well. -/
theorem claim_c6_dynamic_name_counterexample :
    visit (fun i => (1, i + 1))
      (.module_ (.const (some .self_) "Foo" ⟨7, 16⟩) none)
      ⟨[], [], [], false, []⟩
    = .error .panicked
    ∧ expVisit (fun i => (1, i + 1))
        (.module_ (.const (some .self_) "Foo" ⟨7, 16⟩) none)
        ⟨[], [], [], false⟩
      = .error .panicked := by
  constructor
  · simp [visit, fetch_const_name]
  · simp [expVisit, fetch_const_name]

/-- Witness for the amended claim C6 at a concrete dynamic name: the
declared name foo()::Bar whose first segment is a method call. -/
theorem claim_c6_dynamic_name_witness :
    fetch_const_name (RNode.const (some (.send none "foo" [] ⟨0, 3⟩)) "Bar" ⟨0, 8⟩)
        = .error .metaprogramming
    ∧ visit (fun i => (1, i + 1))
        (.class_ (.const (some (.send none "foo" [] ⟨0, 3⟩)) "Bar" ⟨0, 8⟩) none none)
        ⟨[], [], [], false, []⟩
      = .ok ⟨[], [], [], false, []⟩
    ∧ expVisit (fun i => (1, i + 1))
        (.class_ (.const (some (.send none "foo" [] ⟨0, 3⟩)) "Bar" ⟨0, 8⟩) none none)
        ⟨[], [], [], false⟩
      = .ok ⟨[], [], [], false⟩
    ∧ visit (fun i => (1, i + 1))
        (.module_ (.const (some (.send none "foo" [] ⟨0, 3⟩)) "Bar" ⟨0, 8⟩) none)
        ⟨[], [], [], false, []⟩
      = .error .panicked
    ∧ expVisit (fun i => (1, i + 1))
        (.module_ (.const (some (.send none "foo" [] ⟨0, 3⟩)) "Bar" ⟨0, 8⟩) none)
        ⟨[], [], [], false⟩
      = .error .panicked := by
  have happ := claim_c6_dynamic_name_amended (fun i => (1, i + 1))
    (.const (some (.send none "foo" [] ⟨0, 3⟩)) "Bar" ⟨0, 8⟩) none none none
    ⟨[], [], [], false, []⟩ ⟨[], [], [], false⟩ rfl
  exact ⟨rfl, happ.1, happ.2.1, happ.2.2.1, happ.2.2.2⟩

/-- Whether the second argument of a call is a keyword-argument block. -/
def secondArgIsKwargs (args : List RNode) : Bool :=
  match args.get? 1 with
  | some (.kwargs _) => true
  | _ => false

/-- Claim C7, amended.  For the four relationship keywords the strict
walker appends exactly the references computed by
strict_association_references before traversing the call children.  If
the second argument is a keyword-argument block, every class_name entry
with a literal string value yields a use whose name is to_class_case of
that string - the PascalCase-singular transform is applied to the
class_name literal as well, it is NOT taken verbatim - and no other
entry yields anything; in particular, when the block has no class_name
entry, nothing is emitted and the first positional symbol is NOT
consulted.  Only when the second argument is not a keyword-argument
block does a literal symbol first argument yield a use named
to_class_case of its text. -/
theorem claim_c7_association_amended :
    (∀ (lookup : Nat → Nat × Nat) (recv : Option RNode) (method_name : String)
       (args : List RNode) (expression_l : Loc) (c c' : Collector),
       visit lookup (.send recv method_name args expression_l) c = .ok c' →
       ∃ rest, c'.references
         = c.references
           ++ strict_association_references method_name args c.current_namespaces
                (loc_to_range expression_l lookup)
           ++ rest)
    ∧ (∀ (method_name : String) (args : List RNode) (namespace_path : List String)
       (location : Range) (pairs : List RNode),
       method_name ∈ ["has_one", "has_many", "belongs_to", "has_and_belongs_to_many"] →
       args.get? 1 = some (.kwargs pairs) →
       strict_association_references method_name args namespace_path location
         = pairs.filterMap (fun pair_node =>
             match pair_node with
             | .pair (.sym k) v =>
               if k == "class_name" then
                 match v with
                 | .str value => some ⟨to_class_case value, namespace_path, location⟩
                 | _ => none
               else none
             | _ => none))
    ∧ (∀ (method_name : String) (args : List RNode) (namespace_path : List String)
       (location : Range) (d : String),
       method_name ∈ ["has_one", "has_many", "belongs_to", "has_and_belongs_to_many"] →
       secondArgIsKwargs args = false →
       args.get? 0 = some (.sym d) →
       strict_association_references method_name args namespace_path location
         = [⟨to_class_case d, namespace_path, location⟩]) := by
  refine ⟨?_, ?_, ?_⟩
  · intro lookup recv method_name args expression_l c c' hvisit
    rw [visit] at hvisit
    try dsimp only at hvisit
    split at hvisit
    · exact Except.noConfusion hvisit
    · rename_i c2 hrecv
      obtain ⟨⟨r1, hr1⟩, -, -⟩ := visitOpt_mono lookup recv _ c2 hrecv
      obtain ⟨⟨r2, hr2⟩, -, -⟩ := visitList_mono lookup args c2 c' hvisit
      try dsimp only at hr1
      exact ⟨r1 ++ r2, by rw [hr2, hr1]; simp [List.append_assoc]⟩
  · intro method_name args namespace_path location pairs hm hk
    have hbool : (method_name == "has_one" || method_name == "has_many"
        || method_name == "belongs_to" || method_name == "has_and_belongs_to_many") = true := by
      simp only [List.mem_cons, List.not_mem_nil, or_false] at hm
      rcases hm with rfl | rfl | rfl | rfl <;> decide
    unfold strict_association_references
    rw [hbool, hk]
    rfl
  · intro method_name args namespace_path location d hm hnk hd
    have hbool : (method_name == "has_one" || method_name == "has_many"
        || method_name == "belongs_to" || method_name == "has_and_belongs_to_many") = true := by
      simp only [List.mem_cons, List.not_mem_nil, or_false] at hm
      rcases hm with rfl | rfl | rfl | rfl <;> decide
    unfold strict_association_references
    rw [hbool]
    simp only [if_true]
    split
    · rename_i pairs ha
      unfold secondArgIsKwargs at hnk
      rw [ha] at hnk
      exact Bool.noConfusion hnk
    · rw [hd]

/-- Counterexample to claim C7 as frozen, in two parts.  First, for
has_one :some_user_model, class_name: "user_models"
the synthesized target name is UserModel - the class_name literal is run
through to_class_case, not taken verbatim.  Second, for
has_one :users, foo: "x"
the second argument is a keyword block without a class_name entry; the
frozen claim says the first positional symbol then gives target name
User, but the walker emits nothing at all. -/
theorem claim_c7_association_counterexample :
    visit (fun i => (1, i + 1))
      (.send none "has_one" [.sym "some_user_model",
        .kwargs [.pair (.sym "class_name") (.str "user_models")]] ⟨2, 47⟩)
      ⟨[], [], [], false, []⟩
    = .ok ⟨[⟨"UserModel", [], ⟨1, 2, 1, 48⟩⟩], [], [], false, []⟩
    ∧ "UserModel" ≠ "user_models"
    ∧ visit (fun i => (1, i + 1))
        (.send none "has_one" [.sym "users", .kwargs [.pair (.sym "foo") (.str "x")]] ⟨2, 30⟩)
        ⟨[], [], [], false, []⟩
      = .ok ⟨[], [], [], false, []⟩
    ∧ to_class_case "users" = "User" := by
  refine ⟨?_, by decide, ?_, by decide⟩
  · simp [visit, visitList, visitOpt, strict_association_references, loc_to_range,
      to_class_case, splitOnUnderscore]
  · simp [visit, visitList, visitOpt, strict_association_references, loc_to_range]

/-- Witness for the amended claim C7: the class_name branch at a concrete
keyword-argument block. -/
theorem claim_c7_association_witness :
    "has_one" ∈ ["has_one", "has_many", "belongs_to", "has_and_belongs_to_many"]
    ∧ ([RNode.sym "some_user_model",
        .kwargs [.pair (.sym "class_name") (.str "user_models")]].get? 1
        = some (.kwargs [.pair (.sym "class_name") (.str "user_models")]))
    ∧ strict_association_references "has_one"
        [.sym "some_user_model", .kwargs [.pair (.sym "class_name") (.str "user_models")]]
        [] ⟨1, 2, 1, 48⟩
      = [RNode.pair (.sym "class_name") (.str "user_models")].filterMap
          (fun pair_node =>
            match pair_node with
            | .pair (.sym k) v =>
              if k == "class_name" then
                match v with
                | .str value => some ⟨to_class_case value, [], ⟨1, 2, 1, 48⟩⟩
                | _ => none
              else none
            | _ => none) := by
  refine ⟨by decide, rfl, ?_⟩
  exact claim_c7_association_amended.2.1 "has_one"
    [.sym "some_user_model", .kwargs [.pair (.sym "class_name") (.str "user_models")]]
    [] ⟨1, 2, 1, 48⟩ [.pair (.sym "class_name") (.str "user_models")]
    (by decide) rfl

/-- Claim C8, amended.  For a constant assignment whose target name
resolves statically, both walkers emit the definition at the span of the
WHOLE assignment expression (the expression_l field covering target and
assigned value), not at the span of the target alone: the sources pass
node.expression_l, not node.name_l, to loc_to_range.  The definition is
appended right away, before the value expression is traversed. -/
theorem claim_c8_casgn_span_amended :
    (∀ (lookup : Nat → Nat × Nat) (scope : Option RNode) (name : String) (name_l : Loc)
       (value : Option RNode) (expression_l : Loc) (c c' : Collector) (name_ : String),
       fetch_casgn_name scope name = .ok name_ →
       visit lookup (.casgn scope name name_l value expression_l) c = .ok c' →
       ∃ ds, c'.definitions
         = c.definitions
           ++ (⟨fqn_for c.current_namespaces name_, loc_to_range expression_l lookup,
                c.current_namespaces⟩ : Definition) :: ds)
    ∧ (∀ (lookup : Nat → Nat × Nat) (scope : Option RNode) (name : String) (name_l : Loc)
       (value : Option RNode) (expression_l : Loc) (c c' : ExpCollector) (name_ : String),
       fetch_casgn_name scope name = .ok name_ →
       expVisit lookup (.casgn scope name name_l value expression_l) c = .ok c' →
       ∃ ds, c'.definitions
         = c.definitions
           ++ (⟨fqn_for c.current_namespaces name_, loc_to_range expression_l lookup⟩
                : ParsedDefinition) :: ds) := by
  constructor
  · intro lookup scope name name_l value expression_l c c' name_ hfetch h
    rw [visit] at h
    split at h
    · rename_i heq
      rw [hfetch] at heq
      exact Except.noConfusion heq
    · rename_i heq
      rw [hfetch] at heq
      exact Except.noConfusion heq
    · rename_i nm hname
      rw [hfetch] at hname
      have hnm := Except.ok.inj hname
      subst hnm
      try dsimp only at h
      obtain ⟨-, ⟨dv, hdv⟩, -⟩ := visitOpt_mono lookup value _ c' h
      try dsimp only at hdv
      refine ⟨dv, ?_⟩
      rw [hdv]
      simp [List.append_assoc]
  · intro lookup scope name name_l value expression_l c c' name_ hfetch h
    rw [expVisit] at h
    split at h
    · rename_i heq
      rw [hfetch] at heq
      exact Except.noConfusion heq
    · rename_i heq
      rw [hfetch] at heq
      exact Except.noConfusion heq
    · rename_i nm hname
      rw [hfetch] at hname
      have hnm := Except.ok.inj hname
      subst hnm
      try dsimp only at h
      obtain ⟨hdv, -, -⟩ := expVisitOpt_sim lookup value _ c' h
      try dsimp only at hdv
      refine ⟨expDefsOpt lookup c.current_namespaces c.behavioral_change_in_namespace value, ?_⟩
      rw [hdv]
      simp [List.append_assoc]

/-- Counterexample to claim C8 as frozen.  For FOO = 1 the target FOO
spans offsets 0-3 and the whole assignment spans offsets 0-7; the
emitted definition carries the range of the whole assignment (columns
0-8 after lookup), which differs from the range of the target alone
(columns 0-4).  Both walkers behave the same way. -/
theorem claim_c8_casgn_span_counterexample :
    visit (fun i => (1, i + 1))
      (.casgn none "FOO" ⟨0, 3⟩ (some (.int 1)) ⟨0, 7⟩)
      ⟨[], [], [], false, []⟩
    = .ok ⟨[], [⟨"::FOO", ⟨1, 0, 1, 8⟩, []⟩], [], false, []⟩
    ∧ expVisit (fun i => (1, i + 1))
        (.casgn none "FOO" ⟨0, 3⟩ (some (.int 1)) ⟨0, 7⟩)
        ⟨[], [], [], false⟩
      = .ok ⟨[], [⟨"::FOO", ⟨1, 0, 1, 8⟩⟩], [], false⟩
    ∧ loc_to_range ⟨0, 7⟩ (fun i => (1, i + 1))
        ≠ loc_to_range ⟨0, 3⟩ (fun i => (1, i + 1)) := by
  refine ⟨?_, ?_, by decide⟩
  · simp [visit, visitOpt, fetch_casgn_name, loc_to_range, fqn_for, joinColons]
  · simp [expVisit, expVisitOpt, fetch_casgn_name, loc_to_range, fqn_for, joinColons]

/-- Witness for the amended claim C8 at the assignment FOO = 1. -/
theorem claim_c8_casgn_span_witness :
    fetch_casgn_name none "FOO" = .ok "FOO"
    ∧ visit (fun i => (1, i + 1))
        (.casgn none "FOO" ⟨0, 3⟩ (some (.int 1)) ⟨0, 7⟩)
        ⟨[], [], [], false, []⟩
      = .ok ⟨[], [⟨"::FOO", ⟨1, 0, 1, 8⟩, []⟩], [], false, []⟩
    ∧ (∃ ds, (⟨[], [⟨"::FOO", ⟨1, 0, 1, 8⟩, []⟩], [], false, []⟩ : Collector).definitions
        = ([] : List Definition)
          ++ (⟨fqn_for [] "FOO", loc_to_range ⟨0, 7⟩ (fun i => (1, i + 1)), []⟩ : Definition) :: ds) := by
  have heval : visit (fun i => (1, i + 1))
      (.casgn none "FOO" ⟨0, 3⟩ (some (.int 1)) ⟨0, 7⟩)
      ⟨[], [], [], false, []⟩
      = .ok ⟨[], [⟨"::FOO", ⟨1, 0, 1, 8⟩, []⟩], [], false, []⟩ := by
    simp [visit, visitOpt, fetch_casgn_name, loc_to_range, fqn_for, joinColons]
  exact ⟨rfl, heval,
    claim_c8_casgn_span_amended.1 (fun i => (1, i + 1)) none "FOO" ⟨0, 3⟩
      (some (.int 1)) ⟨0, 7⟩ ⟨[], [], [], false, []⟩
      ⟨[], [⟨"::FOO", ⟨1, 0, 1, 8⟩, []⟩], [], false, []⟩ "FOO" rfl heval⟩

/-- Claim C9.  For every templated input that the ERB front end processes
successfully (for any transliteration function and any parser), the
result has an empty definitions list, its path is the input path, and
its references are exactly the references of the underlying Ruby walk of
the transliterated text with only the location replaced by the default
sentinel Range: name and scope path are unchanged position by
position. -/
theorem claim_c9_erb_frame :
    ∀ (convert_erb_to_mangled_ruby : String → String) (parse : String → Option RNode)
      (contents path : String) (pf : ProcessedFile),
      erb_process_from_contents convert_erb_to_mangled_ruby parse contents path = .ok pf →
      ∃ pr, process_from_contents parse (convert_erb_to_mangled_ruby contents) path = .ok pr
        ∧ pf.definitions = []
        ∧ pf.absolute_path = path
        ∧ pf.unresolved_references
            = pr.unresolved_references.map (fun r => { r with location := Range.default })
        ∧ ∀ i : Nat,
            (pf.unresolved_references[i]?.map (fun r => (r.name, r.namespace_path)))
              = (pr.unresolved_references[i]?.map (fun r => (r.name, r.namespace_path))) := by
  intro convert_erb_to_mangled_ruby parse contents path pf h
  rw [erb_process_from_contents] at h
  try dsimp only at h
  split at h
  · exact Except.noConfusion h
  · rename_i pr hpr
    have hpf := (Except.ok.inj h).symm
    subst hpf
    refine ⟨pr, hpr, rfl, rfl, rfl, ?_⟩
    intro i
    show ((pr.unresolved_references.map
        (fun r => { r with location := Range.default }))[i]?.map
          (fun r => (r.name, r.namespace_path))) = _
    rw [List.getElem?_map]
    cases pr.unresolved_references[i]? with
    | none => rfl
    | some r => rfl

/-- Witness for claim C9 at a concrete parser returning a single constant
node: the reference name Foo and scope path [] survive, the span becomes
the default sentinel, and no definitions are returned. -/
theorem claim_c9_erb_frame_witness :
    erb_process_from_contents (fun s => s) (fun _ => some (.const none "Foo" ⟨0, 3⟩)) "x" "p"
      = .ok ⟨"p", [⟨"Foo", [], ⟨0, 0, 0, 0⟩⟩], []⟩
    ∧ (∃ pr, process_from_contents (fun _ => some (.const none "Foo" ⟨0, 3⟩)) ((fun s => s) "x") "p"
        = .ok pr
      ∧ (⟨"p", [⟨"Foo", [], ⟨0, 0, 0, 0⟩⟩], []⟩ : ProcessedFile).definitions = []
      ∧ (⟨"p", [⟨"Foo", [], ⟨0, 0, 0, 0⟩⟩], []⟩ : ProcessedFile).absolute_path = "p"
      ∧ (⟨"p", [⟨"Foo", [], ⟨0, 0, 0, 0⟩⟩], []⟩ : ProcessedFile).unresolved_references
          = pr.unresolved_references.map (fun r => { r with location := Range.default })
      ∧ ∀ i : Nat,
          ((⟨"p", [⟨"Foo", [], ⟨0, 0, 0, 0⟩⟩], []⟩ : ProcessedFile).unresolved_references[i]?.map
              (fun r => (r.name, r.namespace_path)))
            = (pr.unresolved_references[i]?.map (fun r => (r.name, r.namespace_path)))) := by
  have heval : erb_process_from_contents (fun s => s)
      (fun _ => some (.const none "Foo" ⟨0, 3⟩)) "x" "p"
      = .ok ⟨"p", [⟨"Foo", [], ⟨0, 0, 0, 0⟩⟩], []⟩ := by
    simp [erb_process_from_contents, process_from_contents, expVisit,
      fetch_const_const_name, loc_to_range, lineColLookup, Range.default]
  exact ⟨heval,
    claim_c9_erb_frame (fun s => s) (fun _ => some (.const none "Foo" ⟨0, 3⟩)) "x" "p"
      ⟨"p", [⟨"Foo", [], ⟨0, 0, 0, 0⟩⟩], []⟩ heval⟩

/-- Claim C10.  Per-file extraction is deterministic: it is modelled as a
pure total function of the parsed tree, the line-column index and (for
the lightweight variant) the contents and path, so two runs on equal
inputs return identical outputs - same references with same names, scope
paths and spans in the same order, and same definitions.  The only
stateful structure of the sources, the local HashMap of the strict
filtering pass, is modelled by an order-deterministic association list;
its use in the sources (insert then point lookups) is equally
insensitive to iteration order. -/
theorem claim_c10_determinism :
    (∀ (lookup : Nat → Nat × Nat) (a₁ a₂ : Option RNode), a₁ = a₂ →
      extract_from_contents lookup a₁ = extract_from_contents lookup a₂)
    ∧ (∀ (parse : String → Option RNode) (c₁ c₂ p₁ p₂ : String), c₁ = c₂ → p₁ = p₂ →
      process_from_contents parse c₁ p₁ = process_from_contents parse c₂ p₂) := by
  constructor
  · intro lookup a₁ a₂ ha
    rw [ha]
  · intro parse c₁ c₂ p₁ p₂ hc hp
    rw [hc, hp]

/-- Witness for claim C10 at a concrete file. -/
theorem claim_c10_determinism_witness :
    (some (RNode.const none "Foo" ⟨0, 3⟩) : Option RNode)
        = some (RNode.const none "Foo" ⟨0, 3⟩)
    ∧ extract_from_contents (fun i => (1, i + 1)) (some (.const none "Foo" ⟨0, 3⟩))
        = extract_from_contents (fun i => (1, i + 1)) (some (.const none "Foo" ⟨0, 3⟩)) :=
  ⟨rfl, claim_c10_determinism.1 (fun i => (1, i + 1))
    (some (.const none "Foo" ⟨0, 3⟩)) (some (.const none "Foo" ⟨0, 3⟩)) rfl⟩

end Packs
